import Mathlib

set_option maxHeartbeats 1000000

/-!
Verification of `src/linehaul/server.py` (the linehaul streaming ingestion
front-end) against its natural-language specification.

Embedding conventions:
* Python `bytes` values are `List Nat` (each element `0..255`); Python `str`
  values are lists of Unicode code points (`List Nat`), so `str.startswith`
  is `List.isPrefixOf` and slicing is `List.drop`.
* Python exceptions are the explicit error side of `Except`; the inductive
  `PyExc` distinguishes the exception classes the module manipulates,
  including the `Exception` / `BaseException` split that `except Exception`
  observes.
* `uuid.uuid4()` is modelled as an injective fresh supply: the n-th draw of
  the process-wide supply is the token `n`.
* Durations and clock readings are `ℚ`.
* The two excluded grammars (`linehaul.syslog.parser` and
  `linehaul.events.parser`, not under `src/`) are opaque parameters, see
  `parse_line`.
-/

namespace Linehaul

/-- The exception classes the module manipulates.  `cancelled` stands for
`trio.Cancelled`-style `BaseException`s, which Python's `except Exception`
does not catch; every other constructor is an `Exception` subclass
(`UnicodeDecodeError` is a `ValueError`, `trio.TooSlowError` is an
`Exception`, `exc s` is any other sink-raised `Exception`). -/
inductive PyExc where
  | unicodeDecodeError
  | valueError
  | tooSlowError
  | exc (name : String)
  | cancelled
deriving DecidableEq, Repr

/-- Whether `except Exception` catches this exception class. -/
def PyExc.isException : PyExc → Bool
  | .cancelled => false
  | _ => true

/-- A UTF-8 continuation byte (`0x80..0xBF`). -/
def isCont (b : Nat) : Bool := 0x80 ≤ b && b < 0xC0

/-- Strict UTF-8 decoding of a byte list to code points, as Python's
`bytes.decode("utf8")`: rejects truncated sequences, stray continuation
bytes, overlong encodings, surrogate code points and code points above
`0x10FFFF`.  `none` models `UnicodeDecodeError`. -/
def utf8Decode : List Nat → Option (List Nat)
  | [] => some []
  | b :: bs =>
    if b < 0x80 then
      (utf8Decode bs).map (fun r => b :: r)
    else if b < 0xC2 then none
    else if b < 0xE0 then
      match bs with
      | b1 :: rest =>
        if isCont b1 then
          (utf8Decode rest).map (fun r => ((b - 0xC0) * 0x40 + (b1 - 0x80)) :: r)
        else none
      | [] => none
    else if b < 0xF0 then
      match bs with
      | b1 :: b2 :: rest =>
        if isCont b1 && isCont b2 then
          let cp := (b - 0xE0) * 0x1000 + (b1 - 0x80) * 0x40 + (b2 - 0x80)
          if 0x800 ≤ cp && !(0xD800 ≤ cp && cp ≤ 0xDFFF) then
            (utf8Decode rest).map (fun r => cp :: r)
          else none
        else none
      | _ => none
    else if b < 0xF5 then
      match bs with
      | b1 :: b2 :: b3 :: rest =>
        if isCont b1 && isCont b2 && isCont b3 then
          let cp := (b - 0xF0) * 0x40000 + (b1 - 0x80) * 0x1000
                      + (b2 - 0x80) * 0x40 + (b3 - 0x80)
          if 0x10000 ≤ cp && cp ≤ 0x10FFFF then
            (utf8Decode rest).map (fun r => cp :: r)
          else none
        else none
      | _ => none
    else none

/-- The calendar-date part of an `arrow.Arrow` timestamp (the third-party
`arrow` datetime value stored in the event's `timestamp` attribute).  Only
the fields `extract_item_date` reads are modelled. -/
structure Arrow where
  year : Nat
  month : Nat
  day : Nat
deriving DecidableEq, Repr

instance : Inhabited Arrow := ⟨⟨1970, 1, 1⟩⟩

/-- Modelled from the spec: the typed event record produced by the excluded
event grammar (`linehaul.events.parser.Download`, whose definition is not
under `src/`); per the spec it "carries a logical timestamp and a mapping of
named fields". -/
structure Download where
  timestamp : Arrow
  fields : List (String × String)
deriving DecidableEq, Repr

instance : Inhabited Download := ⟨⟨default, []⟩⟩

/-- Modelled from the spec: the structured message produced by the excluded
syslog envelope grammar (`linehaul.syslog.parser`, not under `src/`); only
its `message` payload (a `str`) is consumed by `parse_line`. -/
structure SyslogMessage where
  message : List Nat
deriving DecidableEq, Repr

/-- The two parse stages inside `parse_line`'s `try` block:
`msg = _syslog_parser.parse(line); event = _event_parser.parse(msg.message)`,
with `except ValueError: return`.  The two excluded grammars are passed as
parameters; per the spec their only failure mode is the `ValueError` that
this block catches ("either parse step failing is reported as no record"). -/
def parseStages (syslog_parse : List Nat → Except Unit SyslogMessage)
    (event_parse : List Nat → Except Unit Download)
    (s : List Nat) : Except PyExc (Option Download) :=
  match syslog_parse s with
  | .error _ => .ok none
  | .ok msg =>
    match event_parse msg.message with
    | .error _ => .ok none
    | .ok ev => .ok (some ev)

/-- `parse_line(line, token)` from `server.py`.  Faithful to the source
order: `line.decode("utf8")` runs first and OUTSIDE the `try` block (so a
`UnicodeDecodeError` there is uncaught, even though it is a `ValueError`);
then the optional token prefix check (`startswith` + slice); then the two
parse stages under `except ValueError`. -/
def parse_line (syslog_parse : List Nat → Except Unit SyslogMessage)
    (event_parse : List Nat → Except Unit Download)
    (line : List Nat) (token : Option (List Nat)) :
    Except PyExc (Option Download) :=
  match utf8Decode line with
  | none => .error .unicodeDecodeError
  | some s =>
    match token with
    | some t =>
      if t.isPrefixOf s then parseStages syslog_parse event_parse (s.drop t.length)
      else .ok none
    | none => parseStages syslog_parse event_parse s

/-- Gregorian leap year, as `datetime` uses. -/
def isLeap (y : Nat) : Bool := y % 4 == 0 && (y % 100 != 0 || y % 400 == 0)

def monthLengths (leap : Bool) : List Nat :=
  [31, if leap then 29 else 28, 31, 30, 31, 30, 31, 31, 30, 31, 30, 31]

/-- Day of year (`timetuple().tm_yday`): days of the preceding months plus
the day of month. -/
def dayOfYear (t : Arrow) : Nat :=
  ((monthLengths (isLeap t.year)).take (t.month - 1)).sum + t.day

/-- Zero-pad a numeral to (at least) the given width. -/
def padNat (width n : Nat) : String :=
  let s := toString n
  String.mk (List.replicate (width - s.length) '0') ++ s

/-- `arrow`'s `Arrow.format("YYYYMDDD")`.  The format string tokenizes by
longest match as `YYYY`·`M`·`DDD`, which per arrow's token table are the
zero-padded 4-digit year, the UNPADDED month (`1`..`12`) and the UNPADDED
day of year (`1`..`366`). -/
def arrowFormat_YYYYMDDD (t : Arrow) : String :=
  padNat 4 t.year ++ toString t.month ++ toString (dayOfYear t)

/-- `extract_item_date(item)` from `server.py`:
`item.timestamp.format("YYYYMDDD")`. -/
def extract_item_date (item : Download) : String :=
  arrowFormat_YYYYMDDD item.timestamp

/-- A second definition following the spec's words ("its calendar date,
formatted as a fixed-width key"): the fixed-width `YYYYMMDD` calendar-date
key the spec describes, to be compared with `extract_item_date`. -/
def specFixedWidthKey (t : Arrow) : String :=
  padNat 4 t.year ++ padNat 2 t.month ++ padNat 2 t.day

/-- One element of the row list built by `compute_batches`:
`{"insertId": str(uuid.uuid4()), "json": row}`.  `cattr.unstructure` is a
bijective representation change (attrs record to dict, the Arrow timestamp
serialized by the registered hook), kept as the record itself in the model. -/
structure Row where
  insertId : Nat
  json : Download
deriving DecidableEq, Repr

/-- Lexicographic comparison of character lists (by code point, a proper
prefix comparing below): exactly Python's `<` on `str` values. -/
def lexLt : List Char → List Char → Bool
  | [], [] => false
  | [], _ :: _ => true
  | _ :: _, [] => false
  | a :: as, b :: bs => if a < b then true else if b < a then false else lexLt as bs

/-- Python's `<` on `str`. -/
def pyLt (s t : String) : Bool := lexLt s.data t.data

/-- Python's `<=` on `str` (the reflexive closure of `pyLt`, via totality). -/
def pyLe (s t : String) : Bool := !(pyLt t s)

/-- Insert `x` into `l` before the first element of `≥` key; used to build
the stable ascending-by-key sort below. -/
def insertSorted (key : α → String) (x : α) : List α → List α
  | [] => [x]
  | y :: ys => if pyLe (key x) (key y) then x :: y :: ys else y :: insertSorted key x ys

/-- `sorted(l, key=key)`: stable ascending sort by key.  Python's sort is
stable, and a stable ascending-by-key reordering of a list is unique, so
this insertion sort is extensionally equal to it. -/
def sortByKey (key : α → String) : List α → List α
  | [] => []
  | x :: xs => insertSorted key x (sortByKey key xs)

/-- One step of grouping: prepend `x` to the chunk list, merging it into the
first chunk when the keys agree. -/
def chunkCons (key : α → String) (x : α) : List (List α) → List (List α)
  | [] => [[x]]
  | [] :: gs => [x] :: gs
  | (y :: g) :: gs =>
      if key x = key y then (x :: y :: g) :: gs else [x] :: (y :: g) :: gs

/-- `itertools.groupby(l, key)` restricted to what `compute_batches` uses:
the list of maximal runs of consecutive elements sharing a key. -/
def chunkByKey (key : α → String) : List α → List (List α)
  | [] => []
  | x :: xs => chunkCons key x (chunkByKey key xs)

/-- Attach consecutive fresh tokens from the uuid4 supply, starting at `c`:
the per-row `{"insertId": str(uuid.uuid4()), "json": row}` construction. -/
def attachIds : Nat → List Download → List Row
  | _, [] => []
  | c, x :: xs => ⟨c, x⟩ :: attachIds (c + 1) xs

/-- Map each group to the yielded pair
`(extract_item_date(items[0]), [{"insertId": ..., "json": row} ...])`,
threading the uuid4 supply left to right. -/
def computeGo : Nat → List (List Download) → List (String × List Row)
  | _, [] => []
  | c, g :: gs =>
      (extract_item_date (g.headD default), attachIds c g) :: computeGo (c + g.length) gs

/-- `compute_batches(all_items)` from `server.py`: sort by
`extract_item_date`, group consecutive equal keys, and yield one
`(group key, rows)` pair per group, with the uuid4 supply made explicit as
the starting counter `ctr`. -/
def compute_batches (all_items : List Download) (ctr : Nat) :
    List (String × List Row) :=
  computeGo ctr (chunkByKey extract_item_date (sortByKey extract_item_date all_items))

/-- One Batcher collection cycle (the `with trio.move_on_after(batch_timeout)`
block of `sender`).  `arrivals` lists, in order, the completion time of each
successive `q.get()` measured from cycle start (nondecreasing in a real run)
together with the record it returns; the list ends when the queue would
never yield again within this cycle.  The cycle collects while the batch is
below `bs` and the next get completes strictly before the deadline `bt`. -/
def batchCycle (bt : ℚ) : Nat → List (ℚ × Download) → List Download
  | 0, _ => []
  | _ + 1, [] => []
  | n + 1, (t, x) :: rest => if t < bt then x :: batchCycle bt n rest else []

/-- The time, measured from cycle start, at which the collection block of the
cycle exits: the time of the last collected get when the batch fills, and
the `move_on_after` deadline `bt` otherwise. -/
def cycleEndAux (bt : ℚ) (now : ℚ) : Nat → List (ℚ × Download) → ℚ
  | 0, _ => now
  | _ + 1, [] => bt
  | n + 1, (t, _) :: rest => if t < bt then cycleEndAux bt t n rest else bt

/-- The `batch_size` / `batch_timeout` default resolution at the top of
`sender`: `None` means `3` and `30` respectively. -/
def senderResolve (batch_size : Option Nat) (batch_timeout : Option ℚ) : Nat × ℚ :=
  ((match batch_size with | none => 3 | some n => n),
   (match batch_timeout with | none => 30 | some t => t))

/-- One `sender` cycle's collected batch, under the configured (or default)
size and timeout. -/
def senderCycle (arrivals : List (ℚ × Download))
    (batch_size : Option Nat) (batch_timeout : Option ℚ) : List Download :=
  batchCycle (senderResolve batch_size batch_timeout).2
    (senderResolve batch_size batch_timeout).1 arrivals

/-- When one `sender` cycle's collection block exits (cycle-start-relative). -/
def senderCycleEnd (arrivals : List (ℚ × Download))
    (batch_size : Option Nat) (batch_timeout : Option ℚ) : ℚ :=
  cycleEndAux (senderResolve batch_size batch_timeout).2 0
    (senderResolve batch_size batch_timeout).1 arrivals

instance {ε α : Type} [DecidableEq ε] [DecidableEq α] : DecidableEq (Except ε α) := fun a b =>
  match a, b with
  | .ok x, .ok y =>
      if h : x = y then isTrue (by rw [h]) else isFalse (by intro hc; cases hc; exact h rfl)
  | .ok _, .error _ => isFalse (by intro hc; cases hc)
  | .error _, .ok _ => isFalse (by intro hc; cases hc)
  | .error e, .error f =>
      if h : e = f then isTrue (by rw [h]) else isFalse (by intro hc; cases hc; exact h rfl)

/-- One sink call `bq.insert_all(...)` as the dispatcher's environment sees
it: how long the call runs and its result (`.ok` or a raised exception). -/
structure SinkCall where
  duration : ℚ
  result : Except PyExc Unit
deriving DecidableEq

/-- What one run of the decorated `actually_send_batch` did: the payload and
outcome of every attempt in order, the backoff waits slept between attempts,
and the overall result (`.error e` = the exception raised to the caller). -/
structure DispatchTrace where
  attempts : List (List Row × Except PyExc Unit)
  waits : List ℚ
  result : Except PyExc Unit
deriving DecidableEq

/-- The loop of the tenacity decorator on `actually_send_batch`:
`retry=retry_if_exception_type(trio.TooSlowError)`,
`stop=stop_after_attempt(15)`, `reraise=True`.  `k` is tenacity's
`attempt_number` (1-based), `remaining` the number of retries still allowed
(`15 - k`).  Each attempt calls the sink with the SAME `batch` argument.
A non-`TooSlowError` exception fails the retry predicate and is raised at
once; a `TooSlowError` is retried after `wait k` until attempts run out, and
the final exception is re-raised (`reraise=True`). -/
def tenacityGo (batch : List Row) (outcome : Nat → Except PyExc Unit)
    (wait : Nat → ℚ) : Nat → Nat → DispatchTrace
  | 0, k =>
    match outcome k with
    | .ok _ => ⟨[(batch, .ok ())], [], .ok ()⟩
    | .error e => ⟨[(batch, .error e)], [], .error e⟩
  | r + 1, k =>
    match outcome k with
    | .ok _ => ⟨[(batch, .ok ())], [], .ok ()⟩
    | .error e =>
      if e = .tooSlowError then
        let T := tenacityGo batch outcome wait r (k + 1)
        ⟨(batch, .error e) :: T.attempts, wait k :: T.waits, T.result⟩
      else ⟨[(batch, .error e)], [], .error e⟩

/-- tenacity's `wait_random_exponential(multiplier=1, max=60)`: after attempt
`k` the wait is `uniform(0, min(1 * 2 ** k, 60))`; the uniform draw is
modelled by the scaling factor `u k` (a number in `[0, 1]`). -/
def waitRandomExp (u : Nat → ℚ) (k : Nat) : ℚ := u k * min ((2 : ℚ) ^ k) 60

/-- The body of `actually_send_batch` for attempt `k`:
`with trio.fail_after(api_timeout): await bq.insert_all(...)` — a call
running past the deadline is turned into a raised `trio.TooSlowError`,
otherwise the call's own result stands. -/
def attemptOutcome (behavior : Nat → SinkCall) (deadline : ℚ) (k : Nat) :
    Except PyExc Unit :=
  if deadline < (behavior k).duration then .error .tooSlowError
  else (behavior k).result

/-- `actually_send_batch(bq, table, template_suffix, batch, api_timeout)`
under its tenacity decorator.  `behavior k` describes the sink call of
attempt `k`; `u` the random draws; `api_timeout=None` defaults to 15. -/
def actually_send_batch (behavior : Nat → SinkCall) (u : Nat → ℚ)
    (batch : List Row) (api_timeout : Option ℚ) : DispatchTrace :=
  tenacityGo batch (attemptOutcome behavior (api_timeout.getD 15))
    (waitRandomExp u) 14 1

/-- `send_batch(*args, **kwargs)` from `server.py`: run the decorated
`actually_send_batch` and swallow anything `except Exception` catches
(the batch is dropped on the floor, per the comment in the source). -/
def send_batch (behavior : Nat → SinkCall) (u : Nat → ℚ)
    (batch : List Row) (api_timeout : Option ℚ) : Except PyExc Unit :=
  match (actually_send_batch behavior u batch api_timeout).result with
  | .ok _ => .ok ()
  | .error e => if e.isException then .ok () else .error e

/-! ### Order facts about the Python string comparison -/

theorem lexLt_irrefl (a : List Char) : lexLt a a = false := by
  induction a with
  | nil => rfl
  | cons x xs ih => simp [lexLt, lt_irrefl, ih]

theorem lexLt_asymm : ∀ {a b : List Char}, lexLt a b = true → lexLt b a = false := by
  intro a
  induction a with
  | nil =>
    intro b h
    cases b with
    | nil => simp [lexLt] at h
    | cons y ys => rfl
  | cons x xs ih =>
    intro b h
    cases b with
    | nil => simp [lexLt] at h
    | cons y ys =>
      by_cases hxy : x < y
      · have hyx : ¬ y < x := lt_asymm hxy
        simp [lexLt, hxy, hyx]
      · by_cases hyx : y < x
        · simp [lexLt, hxy, hyx] at h
        · have hxy' : lexLt xs ys = true := by simpa [lexLt, hxy, hyx] using h
          simpa [lexLt, hxy, hyx] using ih hxy'

theorem lexLt_conn : ∀ {a b : List Char},
    lexLt a b = false → lexLt b a = false → a = b := by
  intro a
  induction a with
  | nil =>
    intro b h1 _
    cases b with
    | nil => rfl
    | cons y ys => simp [lexLt] at h1
  | cons x xs ih =>
    intro b h1 h2
    cases b with
    | nil => simp [lexLt] at h2
    | cons y ys =>
      by_cases hxy : x < y
      · simp [lexLt, hxy] at h1
      · by_cases hyx : y < x
        · simp [lexLt, hyx] at h2
        · have hx : x = y := ((lt_trichotomy x y).resolve_left hxy).resolve_right hyx
          subst hx
          have h1' : lexLt xs ys = false := by simpa [lexLt, hyx] using h1
          have h2' : lexLt ys xs = false := by simpa [lexLt, hyx] using h2
          rw [ih h1' h2']

theorem lexLt_trans : ∀ {a b c : List Char},
    lexLt a b = true → lexLt b c = true → lexLt a c = true := by
  intro a
  induction a with
  | nil =>
    intro b c h1 h2
    cases b with
    | nil => simp [lexLt] at h1
    | cons y ys =>
      cases c with
      | nil => simp [lexLt] at h2
      | cons z zs => rfl
  | cons x xs ih =>
    intro b c h1 h2
    cases b with
    | nil => simp [lexLt] at h1
    | cons y ys =>
      cases c with
      | nil => simp [lexLt] at h2
      | cons z zs =>
        by_cases hxy : x < y
        · by_cases hyz : y < z
          · simp [lexLt, lt_trans hxy hyz]
          · by_cases hzy : z < y
            · simp [lexLt, hyz, hzy] at h2
            · have hy : y = z := ((lt_trichotomy y z).resolve_left hyz).resolve_right hzy
              subst hy
              simp [lexLt, hxy]
        · by_cases hyx : y < x
          · simp [lexLt, hxy, hyx] at h1
          · have hx : x = y := ((lt_trichotomy x y).resolve_left hxy).resolve_right hyx
            subst hx
            have h1' : lexLt xs ys = true := by simpa [lexLt, hxy, hyx] using h1
            by_cases hyz : x < z
            · simp [lexLt, hyz]
            · by_cases hzy : z < x
              · simp [lexLt, hyz, hzy] at h2
              · have h2' : lexLt ys zs = true := by simpa [lexLt, hyz, hzy] using h2
                simp [lexLt, hyz, hzy, ih h1' h2']

theorem string_data_eq {s t : String} (h : s.data = t.data) : s = t := by
  cases s; cases t; exact congrArg String.mk h

theorem pyLt_irrefl (s : String) : pyLt s s = false := lexLt_irrefl s.data

theorem pyLt_asymm {s t : String} (h : pyLt s t = true) : pyLt t s = false :=
  lexLt_asymm h

theorem pyLt_trans {s t u : String} (h1 : pyLt s t = true) (h2 : pyLt t u = true) :
    pyLt s u = true :=
  lexLt_trans h1 h2

theorem pyLt_ne {s t : String} (h : pyLt s t = true) : s ≠ t := by
  intro he; subst he; rw [pyLt_irrefl] at h; exact Bool.false_ne_true h

theorem pyLe_refl (s : String) : pyLe s s = true := by
  simp [pyLe, pyLt_irrefl]

theorem pyLt_of_not_le {s t : String} (h : pyLe s t = false) : pyLt t s = true := by
  simpa [pyLe] using h

theorem pyLe_of_lt {s t : String} (h : pyLt s t = true) : pyLe s t = true := by
  simp [pyLe, pyLt_asymm h]

theorem pyLe_total {s t : String} (h : pyLe s t = false) : pyLe t s = true :=
  pyLe_of_lt (pyLt_of_not_le h)

theorem pyLe_antisymm {s t : String} (h1 : pyLe s t = true) (h2 : pyLe t s = true) :
    s = t := by
  have h1' : pyLt t s = false := by simpa [pyLe] using h1
  have h2' : pyLt s t = false := by simpa [pyLe] using h2
  exact string_data_eq (lexLt_conn h2' h1')

theorem pyLt_of_le_ne {s t : String} (h1 : pyLe s t = true) (h2 : s ≠ t) :
    pyLt s t = true := by
  cases hst : pyLt s t with
  | true => rfl
  | false =>
    have h1' : pyLt t s = false := by simpa [pyLe] using h1
    exact absurd (string_data_eq (lexLt_conn hst h1')) h2

theorem pyLe_trans {s t u : String} (h1 : pyLe s t = true) (h2 : pyLe t u = true) :
    pyLe s u = true := by
  cases hsu : pyLe s u with
  | true => rfl
  | false =>
    have hus : pyLt u s = true := pyLt_of_not_le hsu
    have h1' : pyLt t s = false := by simpa [pyLe] using h1
    have h2' : pyLt u t = false := by simpa [pyLe] using h2
    cases hst : pyLt s t with
    | true =>
      have : pyLt u t = true := pyLt_trans hus hst
      rw [h2'] at this; exact (Bool.false_ne_true this).elim
    | false =>
      have : s = t := string_data_eq (lexLt_conn hst h1')
      subst this
      rw [h2'] at hus; exact (Bool.false_ne_true hus).elim

theorem pyLt_le_trans {s t u : String} (h1 : pyLt s t = true) (h2 : pyLe t u = true) :
    pyLt s u = true := by
  cases htu : pyLt t u with
  | true => exact pyLt_trans h1 htu
  | false =>
    have h2' : pyLt u t = false := by simpa [pyLe] using h2
    have : t = u := string_data_eq (lexLt_conn htu h2')
    subst this; exact h1

/-! ### The stable sort: permutation, stability (filter preservation),
sortedness -/

theorem insertSorted_perm (key : α → String) (x : α) (l : List α) :
    (insertSorted key x l).Perm (x :: l) := by
  induction l with
  | nil => exact List.Perm.refl _
  | cons y ys ih =>
    by_cases h : pyLe (key x) (key y) = true
    · simp [insertSorted, h]
    · simp only [insertSorted, h, if_false, Bool.not_eq_true] at *
      exact ((ih.cons y).trans (List.Perm.swap x y ys)).symm.symm

theorem sortByKey_perm (key : α → String) (l : List α) :
    (sortByKey key l).Perm l := by
  induction l with
  | nil => exact List.Perm.refl _
  | cons x xs ih =>
    exact (insertSorted_perm key x (sortByKey key xs)).trans (ih.cons x)

theorem mem_insertSorted {key : α → String} {x a : α} {l : List α}
    (h : a ∈ insertSorted key x l) : a = x ∨ a ∈ l :=
  List.mem_cons.mp ((insertSorted_perm key x l).subset h)

theorem filter_insertSorted (key : α → String) (x : α) (l : List α) (s : String) :
    (insertSorted key x l).filter (fun a => key a = s)
      = if key x = s then x :: l.filter (fun a => key a = s)
        else l.filter (fun a => key a = s) := by
  induction l with
  | nil => by_cases hx : key x = s <;> simp [insertSorted, hx]
  | cons y ys ih =>
    by_cases hle : pyLe (key x) (key y) = true
    · simp only [insertSorted, hle, if_true]
      by_cases hx : key x = s <;> simp [List.filter_cons, hx]
    · have hlt : pyLt (key y) (key x) = true :=
        pyLt_of_not_le (Bool.eq_false_iff.mpr hle)
      have hne : key y ≠ key x := pyLt_ne hlt
      simp only [insertSorted, hle, if_false]
      by_cases hx : key x = s
      · have hy : ¬ (key y = s) := fun hys => hne (hys.trans hx.symm)
        simp [List.filter_cons, hy, ih, hx]
      · by_cases hy : key y = s <;> simp [List.filter_cons, hy, ih, hx]

theorem filter_sortByKey (key : α → String) (l : List α) (s : String) :
    (sortByKey key l).filter (fun a => key a = s)
      = l.filter (fun a => key a = s) := by
  induction l with
  | nil => rfl
  | cons x xs ih =>
    rw [sortByKey, filter_insertSorted, ih]
    by_cases hx : key x = s <;> simp [List.filter_cons, hx]

theorem insertSorted_pairwise (key : α → String) (x : α) (l : List α)
    (h : l.Pairwise (fun a b => pyLe (key a) (key b) = true)) :
    (insertSorted key x l).Pairwise (fun a b => pyLe (key a) (key b) = true) := by
  induction l with
  | nil => simp [insertSorted]
  | cons y ys ih =>
    rcases List.pairwise_cons.mp h with ⟨hy, hys⟩
    by_cases hle : pyLe (key x) (key y) = true
    · simp only [insertSorted, hle, if_true]
      refine List.pairwise_cons.mpr ⟨?_, h⟩
      intro z hz
      rcases List.mem_cons.mp hz with rfl | hz
      · exact hle
      · exact pyLe_trans hle (hy z hz)
    · have hyx : pyLe (key y) (key x) = true :=
        pyLe_total (Bool.eq_false_iff.mpr hle)
      simp only [insertSorted, hle, if_false]
      refine List.pairwise_cons.mpr ⟨?_, ih hys⟩
      intro z hz
      rcases mem_insertSorted hz with rfl | hz
      · exact hyx
      · exact hy z hz

theorem sortByKey_pairwise (key : α → String) (l : List α) :
    (sortByKey key l).Pairwise (fun a b => pyLe (key a) (key b) = true) := by
  induction l with
  | nil => simp [sortByKey]
  | cons x xs ih => exact insertSorted_pairwise key x _ ih

/-! ### Grouping consecutive equal keys -/

theorem chunkCons_join (key : α → String) (x : α) (cs : List (List α)) :
    (chunkCons key x cs).flatten = x :: cs.flatten := by
  match cs with
  | [] => rfl
  | [] :: gs => simp [chunkCons]
  | (y :: g) :: gs =>
    by_cases h : key x = key y <;> simp [chunkCons, h]

theorem chunkByKey_join (key : α → String) (l : List α) :
    (chunkByKey key l).flatten = l := by
  induction l with
  | nil => rfl
  | cons x xs ih => rw [chunkByKey, chunkCons_join, ih]

theorem chunkByKey_not_nil_mem (key : α → String) (l : List α) :
    [] ∉ chunkByKey key l := by
  induction l with
  | nil => simp [chunkByKey]
  | cons x xs ih =>
    rw [chunkByKey]
    match hcs : chunkByKey key xs with
    | [] => simp [chunkCons]
    | [] :: gs => exact absurd (hcs ▸ List.mem_cons_self [] gs) ih
    | (y :: g) :: gs =>
      intro hmem
      rw [hcs] at ih
      by_cases h : key x = key y
      · simp only [chunkCons, h, if_true] at hmem
        rcases List.mem_cons.mp hmem with h' | h'
        · exact List.cons_ne_nil _ _ h'.symm
        · exact ih (List.mem_cons_of_mem _ h')
      · simp only [chunkCons, h, if_false] at hmem
        rcases List.mem_cons.mp hmem with h' | h'
        · exact List.cons_ne_nil _ _ h'.symm
        · exact ih h'

/-- On a list sorted by key, grouping consecutive equal keys yields strictly
increasing group keys (hence one group per distinct key) and each group is
the filter of the whole list by its own key (hence in list order). -/
theorem chunk_char (key : α → String) (d : α) :
    ∀ l : List α, l.Pairwise (fun a b => pyLe (key a) (key b) = true) →
      ((chunkByKey key l).map (fun g => key (g.headD d))).Pairwise
          (fun s t => pyLt s t = true)
      ∧ ∀ g ∈ chunkByKey key l, g = l.filter (fun a => key a = key (g.headD d)) := by
  intro l
  induction l with
  | nil => intro _; exact ⟨List.Pairwise.nil, by simp [chunkByKey]⟩
  | cons x xs ih =>
    intro hp
    rcases List.pairwise_cons.mp hp with ⟨hx, hxs⟩
    rcases ih hxs with ⟨ihP, ihF⟩
    rw [chunkByKey]
    match hcs : chunkByKey key xs with
    | [] =>
      have hxs0 : xs = [] := by
        have hj := chunkByKey_join key xs
        rw [hcs] at hj
        simpa using hj.symm
      subst hxs0
      refine ⟨by simp [chunkCons], ?_⟩
      intro g hg
      have hg' : g = [x] := by simpa [chunkCons] using hg
      subst hg'
      simp [List.filter_cons]
    | [] :: gs =>
      exact absurd (hcs ▸ List.mem_cons_self [] gs) (chunkByKey_not_nil_mem key xs)
    | (y :: g0) :: gs =>
      rw [hcs] at ihP ihF
      have hxsj : xs = (y :: g0) ++ gs.flatten := by
        have hj := chunkByKey_join key xs
        rw [hcs] at hj
        simpa using hj.symm
      have hymem : y ∈ xs := by
        rw [hxsj]; exact List.mem_append_left _ (List.mem_cons_self y g0)
      have hfirst : (y : α) :: g0 = xs.filter (fun a => key a = key y) := by
        simpa using ihF (y :: g0) (List.mem_cons_self _ _)
      have hlater : ∀ g ∈ gs, pyLt (key y) (key ((g : List α).headD d)) = true := by
        intro g hg
        have hP' := ihP
        rw [List.map_cons] at hP'
        have := (List.pairwise_cons.mp hP').1
        simpa using this _ (List.mem_map_of_mem _ hg)
      have hkeymem : ∀ g ∈ chunkByKey key xs, ∀ a ∈ g, key a = key (g.headD d) := by
        intro g hg a ha
        have := ihF g (hcs ▸ hg)
        rw [this] at ha
        exact of_decide_eq_true (List.mem_filter.mp ha).2
      by_cases hk : key x = key y
      · simp only [chunkCons, hk, if_pos]
        constructor
        · rw [List.map_cons]
          have : key ((x :: y :: g0).headD d) = key y := by simpa using hk
          rw [this]
          simpa using ihP
        · intro g hg
          rcases List.mem_cons.mp hg with rfl | hg
          · simp only [List.headD_cons]
            rw [List.filter_cons, if_pos (by simp)]
            simp only [hk]
            exact congrArg (x :: ·) hfirst
          · have hne : key x ≠ key ((g : List α).headD d) := by
              rw [hk]
              exact pyLt_ne (hlater g hg)
            rw [List.filter_cons, if_neg (by simpa using hne)]
            exact ihF g (List.mem_cons_of_mem _ hg)
      · have hlexy : pyLe (key x) (key y) = true := hx y hymem
        have hltxy : pyLt (key x) (key y) = true := pyLt_of_le_ne hlexy hk
        have hltall : ∀ a ∈ xs, pyLt (key x) (key a) = true := by
          intro a ha
          rw [hxsj] at ha
          rcases List.mem_append.mp ha with ha | ha
          · have ha2 : a ∈ xs.filter (fun b => key b = key y) := by
              rw [← hfirst]; exact ha
            have : key a = key y := of_decide_eq_true (List.mem_filter.mp ha2).2
            rw [this]; exact hltxy
          · rcases List.mem_flatten.mp ha with ⟨g, hg, hag⟩
            have h1 : key a = key ((g : List α).headD d) :=
              hkeymem g (hcs ▸ List.mem_cons_of_mem _ hg) a hag
            rw [h1]
            exact pyLt_trans hltxy (hlater g hg)
        simp only [chunkCons, hk, if_neg, if_false]
        constructor
        · rw [List.map_cons, List.map_cons]
          refine List.pairwise_cons.mpr ⟨?_, ihP⟩
          intro s hs
          rcases List.mem_cons.mp hs with rfl | hs
          · simpa using hltxy
          · rcases List.mem_map.mp hs with ⟨g, hg, rfl⟩
            simpa using pyLt_trans hltxy (by simpa using hlater g hg)
        · intro g hg
          rcases List.mem_cons.mp hg with rfl | hg
          · simp only [List.headD_cons]
            rw [List.filter_cons, if_pos (by simp)]
            have hnil : xs.filter (fun a => key a = key x) = [] := by
              rw [List.filter_eq_nil_iff]
              intro a ha
              simp only [decide_eq_true_eq]
              intro he
              exact absurd rfl (he ▸ pyLt_ne (hltall a ha))
            rw [hnil]
          · rcases List.mem_cons.mp hg with rfl | hg
            · have hne : key x ≠ key ((y :: g0).headD d) := by simpa using hk
              rw [List.filter_cons, if_neg (by simpa using hne)]
              exact ihF (y :: g0) (List.mem_cons_self _ _)
            · have hne : key x ≠ key ((g : List α).headD d) :=
                pyLt_ne (pyLt_trans hltxy (hlater g hg))
              rw [List.filter_cons, if_neg (by simpa using hne)]
              exact ihF g (List.mem_cons_of_mem _ hg)

/-! ### Structure of `compute_batches` -/

theorem attachIds_map_json (c : Nat) (g : List Download) :
    (attachIds c g).map Row.json = g := by
  induction g generalizing c with
  | nil => rfl
  | cons x xs ih => simp [attachIds, ih]

theorem attachIds_eq_nil_iff (c : Nat) (g : List Download) :
    attachIds c g = [] ↔ g = [] := by
  cases g <;> simp [attachIds]

theorem attachIds_id_ge {c : Nat} {g : List Download} :
    ∀ r ∈ attachIds c g, c ≤ r.insertId := by
  induction g generalizing c with
  | nil => intro r hr; simp [attachIds] at hr
  | cons x xs ih =>
    intro r hr
    rcases List.mem_cons.mp hr with rfl | hr
    · exact le_refl _
    · exact le_trans (Nat.le_succ c) (ih r hr)

theorem attachIds_ids_nodup (c : Nat) (g : List Download) :
    ((attachIds c g).map Row.insertId).Nodup := by
  induction g generalizing c with
  | nil => simp [attachIds]
  | cons x xs ih =>
    simp only [attachIds, List.map_cons]
    refine List.nodup_cons.mpr ⟨?_, ih (c + 1)⟩
    intro hmem
    rcases List.mem_map.mp hmem with ⟨r, hr, hid⟩
    have := attachIds_id_ge r hr
    omega

theorem computeGo_mem :
    ∀ {c : Nat} {gs : List (List Download)} {p : String × List Row},
      p ∈ computeGo c gs →
      ∃ g ∈ gs, ∃ c0, p = (extract_item_date (g.headD default), attachIds c0 g) := by
  intro c gs
  induction gs generalizing c with
  | nil => intro p hp; simp [computeGo] at hp
  | cons g gs ih =>
    intro p hp
    rcases List.mem_cons.mp hp with rfl | hp
    · exact ⟨g, List.mem_cons_self _ _, c, rfl⟩
    · rcases ih hp with ⟨g', hg', c0, rfl⟩
      exact ⟨g', List.mem_cons_of_mem _ hg', c0, rfl⟩

theorem computeGo_map_fst (c : Nat) (gs : List (List Download)) :
    (computeGo c gs).map Prod.fst
      = gs.map (fun g => extract_item_date (g.headD default)) := by
  induction gs generalizing c with
  | nil => rfl
  | cons g gs ih => simp [computeGo, ih]

theorem computeGo_flatten_json (c : Nat) (gs : List (List Download)) :
    ((computeGo c gs).map (fun p => p.2.map Row.json)).flatten = gs.flatten := by
  induction gs generalizing c with
  | nil => rfl
  | cons g gs ih => simp [computeGo, attachIds_map_json, ih]

theorem headD_mem {l : List α} (h : l ≠ []) (d : α) : l.headD d ∈ l := by
  cases l with
  | nil => exact absurd rfl h
  | cons x xs => simp

theorem getLastD_mem {l : List α} (h : l ≠ []) (d : α) : l.getLastD d ∈ l := by
  induction l generalizing d with
  | nil => exact absurd rfl h
  | cons x xs ih =>
    rw [List.getLastD_cons]
    cases xs with
    | nil => simp [List.getLastD]
    | cons y ys =>
      exact List.mem_cons_of_mem x (ih (List.cons_ne_nil y ys) x)

/-! ### Claim theorems about partitioning -/

/-- C8: for every batch, `compute_batches` produces exactly one sub-batch per
distinct grouping key occurring in the batch (the yielded keys are distinct,
and a key is yielded iff some record of the batch has it), and within each
sub-batch the records appear in their original arrival order — each
sub-batch's records are exactly the filter of the input list by the
sub-batch's key, in input order, because the sort by grouping key is
stable. -/
theorem compute_batches_partition (items : List Download) (ctr : Nat) :
    ((compute_batches items ctr).map Prod.fst).Nodup
    ∧ (∀ s : String,
        s ∈ (compute_batches items ctr).map Prod.fst
          ↔ s ∈ items.map extract_item_date)
    ∧ ∀ p ∈ compute_batches items ctr,
        p.2.map Row.json = items.filter (fun i => extract_item_date i = p.1) := by
  have hsorted := sortByKey_pairwise extract_item_date items
  rcases chunk_char extract_item_date default (sortByKey extract_item_date items)
      hsorted with ⟨hP, hF⟩
  refine ⟨?_, ?_, ?_⟩
  · rw [compute_batches, computeGo_map_fst]
    exact hP.imp fun h => pyLt_ne h
  · intro s
    rw [compute_batches, computeGo_map_fst]
    constructor
    · intro hs
      rcases List.mem_map.mp hs with ⟨g, hg, rfl⟩
      have hgne : g ≠ [] :=
        fun h => (chunkByKey_not_nil_mem extract_item_date _) (h ▸ hg)
      have hmem : g.headD default ∈ g := headD_mem hgne default
      have hsub : g ⊆ sortByKey extract_item_date items := by
        rw [hF g hg]; exact fun a ha => (List.mem_filter.mp ha).1
      have : g.headD default ∈ items :=
        ((sortByKey_perm _ _).mem_iff).mp (hsub hmem)
      exact List.mem_map_of_mem _ this
    · intro hs
      rcases List.mem_map.mp hs with ⟨a, ha, rfl⟩
      have ha' : a ∈ sortByKey extract_item_date items :=
        ((sortByKey_perm _ _).mem_iff).mpr ha
      rw [← chunkByKey_join extract_item_date (sortByKey extract_item_date items)]
        at ha'
      rcases List.mem_flatten.mp ha' with ⟨g, hg, hag⟩
      have hkey : extract_item_date a = extract_item_date (g.headD default) := by
        have := hF g hg
        rw [this] at hag
        exact of_decide_eq_true (List.mem_filter.mp hag).2
      rw [hkey]
      exact List.mem_map_of_mem _ hg
  · intro p hp
    rcases computeGo_mem hp with ⟨g, hg, c0, rfl⟩
    show (attachIds c0 g).map Row.json
      = items.filter (fun i => extract_item_date i = extract_item_date (g.headD default))
    rw [attachIds_map_json]
    conv_lhs => rw [hF g hg]
    exact filter_sortByKey extract_item_date items _

/-- C9: every row of every sub-batch produced by `compute_batches` carries its
own freshly drawn idempotency identifier, and no two rows within the same
sub-batch carry the same identifier. -/
theorem compute_batches_ids_nodup (items : List Download) (ctr : Nat) :
    ∀ p ∈ compute_batches items ctr, (p.2.map Row.insertId).Nodup := by
  intro p hp
  rcases computeGo_mem hp with ⟨g, _, c0, rfl⟩
  exact attachIds_ids_nodup c0 g

/-- C10: `compute_batches` yields only non-empty sub-batches (so reading
`items[0]` of a group is always safe), and the rows of all yielded
sub-batches taken together are a permutation of the input records —
partitioning neither loses nor duplicates a record. -/
theorem compute_batches_nonempty_complete (items : List Download) (ctr : Nat) :
    (∀ p ∈ compute_batches items ctr, p.2 ≠ [])
    ∧ ((compute_batches items ctr).map (fun p => p.2.map Row.json)).flatten.Perm
        items := by
  constructor
  · intro p hp
    rcases computeGo_mem hp with ⟨g, hg, c0, rfl⟩
    have hgne : g ≠ [] :=
      fun h => (chunkByKey_not_nil_mem extract_item_date _) (h ▸ hg)
    simpa [attachIds_eq_nil_iff] using hgne
  · rw [compute_batches, computeGo_flatten_json, chunkByKey_join]
    exact sortByKey_perm _ _

/-- Concrete inputs for the partitioning witnesses: dates `[D1, D2, D1]` with
`D1 = 2023-01-05` and `D2 = 2023-01-06`. -/
def exD1 : Download := ⟨⟨2023, 1, 5⟩, []⟩

def exD2 : Download := ⟨⟨2023, 1, 6⟩, []⟩

def exItems : List Download := [exD1, exD2, exD1]

/-- The first sub-batch `compute_batches` yields on `exItems`. -/
def exPair : String × List Row := ("202315", [⟨0, exD1⟩, ⟨1, exD1⟩])

theorem compute_batches_partition_witness :
    (((compute_batches exItems 0).map Prod.fst).Nodup
      ∧ (∀ s : String,
          s ∈ (compute_batches exItems 0).map Prod.fst
            ↔ s ∈ exItems.map extract_item_date)
      ∧ ∀ p ∈ compute_batches exItems 0,
          p.2.map Row.json = exItems.filter (fun i => extract_item_date i = p.1))
    ∧ (compute_batches exItems 0).length = 2
    ∧ exPair ∈ compute_batches exItems 0
    ∧ exPair.2.map Row.json = [exD1, exD1] :=
  ⟨compute_batches_partition exItems 0, by decide, by decide, by decide⟩

theorem compute_batches_ids_nodup_witness :
    exPair ∈ compute_batches exItems 0
    ∧ (exPair.2.map Row.insertId).Nodup :=
  ⟨by decide, compute_batches_ids_nodup exItems 0 exPair (by decide)⟩

theorem compute_batches_nonempty_complete_witness :
    exPair.2 ≠ []
    ∧ ((compute_batches exItems 0).map (fun p => p.2.map Row.json)).flatten.Perm
        exItems :=
  ⟨(compute_batches_nonempty_complete exItems 0).1 exPair (by decide),
    (compute_batches_nonempty_complete exItems 0).2⟩

/-! ### Dispatcher trace lemmas -/

/-- Default entry for reading an attempt out of a trace. -/
def dummyAttempt : List Row × Except PyExc Unit := ([], .ok ())

theorem getLastD_of_ne_nil {l : List α} (h : l ≠ []) (a b : α) :
    l.getLastD a = l.getLastD b := by
  cases l with
  | nil => exact absurd rfl h
  | cons x xs => rw [List.getLastD_cons, List.getLastD_cons]

theorem tenacityGo_attempts_ne_nil (batch : List Row)
    (outcome : Nat → Except PyExc Unit) (wait : Nat → ℚ) (r k : Nat) :
    (tenacityGo batch outcome wait r k).attempts ≠ [] := by
  cases r with
  | zero => cases h : outcome k <;> simp [tenacityGo, h]
  | succ r =>
    cases h : outcome k with
    | ok a => simp [tenacityGo, h]
    | error e =>
      by_cases he : e = .tooSlowError <;> simp [tenacityGo, h, he]

theorem tenacityGo_length_le (batch : List Row)
    (outcome : Nat → Except PyExc Unit) (wait : Nat → ℚ) (r k : Nat) :
    (tenacityGo batch outcome wait r k).attempts.length ≤ r + 1 := by
  induction r generalizing k with
  | zero => cases h : outcome k <;> simp [tenacityGo, h]
  | succ r ih =>
    cases h : outcome k with
    | ok a => simp [tenacityGo, h]
    | error e =>
      by_cases he : e = .tooSlowError
      · simp only [tenacityGo, h, he, if_pos, List.length_cons]
        exact Nat.succ_le_succ (ih (k + 1))
      · simp [tenacityGo, h, he]

theorem tenacityGo_payloads (batch : List Row)
    (outcome : Nat → Except PyExc Unit) (wait : Nat → ℚ) (r k : Nat) :
    (tenacityGo batch outcome wait r k).attempts.map Prod.fst
      = List.replicate (tenacityGo batch outcome wait r k).attempts.length batch := by
  induction r generalizing k with
  | zero => cases h : outcome k <;> simp [tenacityGo, h, List.replicate]
  | succ r ih =>
    cases h : outcome k with
    | ok a => simp [tenacityGo, h, List.replicate]
    | error e =>
      by_cases he : e = .tooSlowError
      · simp [tenacityGo, h, he, ih (k + 1), List.replicate_succ]
      · simp [tenacityGo, h, he, List.replicate]

theorem tenacityGo_outcome_getD (batch : List Row)
    (outcome : Nat → Except PyExc Unit) (wait : Nat → ℚ) (r k : Nat) :
    ∀ i < (tenacityGo batch outcome wait r k).attempts.length,
      ((tenacityGo batch outcome wait r k).attempts.getD i dummyAttempt).2
        = outcome (k + i) := by
  induction r generalizing k with
  | zero =>
    intro i hi
    cases h : outcome k with
    | ok a =>
      obtain ⟨⟩ := a
      simp [tenacityGo, h] at hi
      have hi0 : i = 0 := by omega
      subst hi0
      simp [tenacityGo, h]
    | error e =>
      simp [tenacityGo, h] at hi
      have hi0 : i = 0 := by omega
      subst hi0
      simp [tenacityGo, h]
  | succ r ih =>
    intro i hi
    cases h : outcome k with
    | ok a =>
      obtain ⟨⟩ := a
      simp [tenacityGo, h] at hi
      have hi0 : i = 0 := by omega
      subst hi0
      simp [tenacityGo, h]
    | error e =>
      by_cases he : e = .tooSlowError
      · simp only [tenacityGo, h, he, if_pos, List.length_cons] at hi ⊢
        cases i with
        | zero => simpa using (he ▸ h).symm ▸ rfl
        | succ j =>
          have hj : j < (tenacityGo batch outcome wait r (k + 1)).attempts.length := by
            simpa using Nat.lt_of_succ_lt_succ hi
          have := ih (k + 1) j hj
          have harith : k + 1 + j = k + (j + 1) := by omega
          rw [harith] at this
          simpa using this
      · simp [tenacityGo, h, he] at hi
        have hi0 : i = 0 := by omega
        subst hi0
        simp [tenacityGo, h, he]

theorem tenacityGo_nonfinal_tooSlow (batch : List Row)
    (outcome : Nat → Except PyExc Unit) (wait : Nat → ℚ) (r k : Nat) :
    ∀ i, i + 1 < (tenacityGo batch outcome wait r k).attempts.length →
      ((tenacityGo batch outcome wait r k).attempts.getD i dummyAttempt).2
        = .error .tooSlowError := by
  induction r generalizing k with
  | zero =>
    intro i hi
    cases h : outcome k <;> simp [tenacityGo, h] at hi
  | succ r ih =>
    intro i hi
    cases h : outcome k with
    | ok a => simp [tenacityGo, h] at hi
    | error e =>
      by_cases he : e = .tooSlowError
      · simp only [tenacityGo, h, he, if_pos, List.length_cons] at hi ⊢
        cases i with
        | zero => simp [he]
        | succ j =>
          have hj : j + 1 < (tenacityGo batch outcome wait r (k + 1)).attempts.length :=
            Nat.lt_of_succ_lt_succ hi
          simpa using ih (k + 1) j hj
      · simp [tenacityGo, h, he] at hi

theorem tenacityGo_result_getLast (batch : List Row)
    (outcome : Nat → Except PyExc Unit) (wait : Nat → ℚ) (r k : Nat) :
    (tenacityGo batch outcome wait r k).result
      = ((tenacityGo batch outcome wait r k).attempts.getLastD dummyAttempt).2 := by
  induction r generalizing k with
  | zero => cases h : outcome k <;> simp [tenacityGo, h, List.getLastD]
  | succ r ih =>
    cases h : outcome k with
    | ok a => simp [tenacityGo, h, List.getLastD]
    | error e =>
      by_cases he : e = .tooSlowError
      · have hne := tenacityGo_attempts_ne_nil batch outcome wait r (k + 1)
        simp only [tenacityGo, h, he, if_pos, List.getLastD_cons]
        rw [getLastD_of_ne_nil hne _ dummyAttempt]
        exact ih (k + 1)
      · simp [tenacityGo, h, he, List.getLastD]

theorem tenacityGo_no_early_tooSlow (batch : List Row)
    (outcome : Nat → Except PyExc Unit) (wait : Nat → ℚ) (r k : Nat) :
    (tenacityGo batch outcome wait r k).attempts.length < r + 1 →
      ((tenacityGo batch outcome wait r k).attempts.getLastD dummyAttempt).2
        ≠ .error .tooSlowError := by
  induction r generalizing k with
  | zero =>
    intro hlen
    have hne := tenacityGo_attempts_ne_nil batch outcome wait 0 k
    exact absurd (List.length_eq_zero.mp (by omega)) hne
  | succ r ih =>
    intro hlen
    cases h : outcome k with
    | ok a => simp [tenacityGo, h, List.getLastD]
    | error e =>
      by_cases he : e = .tooSlowError
      · have hne := tenacityGo_attempts_ne_nil batch outcome wait r (k + 1)
        simp only [tenacityGo, h, he, if_pos, List.length_cons] at hlen ⊢
        rw [List.getLastD_cons, getLastD_of_ne_nil hne _ dummyAttempt]
        exact ih (k + 1) (Nat.lt_of_succ_lt_succ hlen)
      · simp [tenacityGo, h, he, List.getLastD]

theorem tenacityGo_error_from_outcome (batch : List Row)
    (outcome : Nat → Except PyExc Unit) (wait : Nat → ℚ) (r k : Nat) (e : PyExc) :
    (tenacityGo batch outcome wait r k).result = .error e →
      ∃ j, outcome j = .error e := by
  induction r generalizing k with
  | zero =>
    intro h
    cases ho : outcome k with
    | ok a => simp [tenacityGo, ho] at h
    | error e' =>
      simp [tenacityGo, ho] at h
      exact ⟨k, by rw [ho, h]⟩
  | succ r ih =>
    intro h
    cases ho : outcome k with
    | ok a => simp [tenacityGo, ho] at h
    | error e' =>
      by_cases he : e' = .tooSlowError
      · simp only [tenacityGo, ho, he, if_pos] at h
        exact ih (k + 1) h
      · simp [tenacityGo, ho, he] at h
        exact ⟨k, by rw [ho, h]⟩

theorem tenacityGo_waits_length (batch : List Row)
    (outcome : Nat → Except PyExc Unit) (wait : Nat → ℚ) (r k : Nat) :
    (tenacityGo batch outcome wait r k).waits.length + 1
      = (tenacityGo batch outcome wait r k).attempts.length := by
  induction r generalizing k with
  | zero => cases h : outcome k <;> simp [tenacityGo, h]
  | succ r ih =>
    cases h : outcome k with
    | ok a => simp [tenacityGo, h]
    | error e =>
      by_cases he : e = .tooSlowError
      · simp only [tenacityGo, h, he, if_pos, List.length_cons]
        rw [ih (k + 1)]
      · simp [tenacityGo, h, he]

theorem tenacityGo_waits_getD (batch : List Row)
    (outcome : Nat → Except PyExc Unit) (wait : Nat → ℚ) (r k : Nat) :
    ∀ i < (tenacityGo batch outcome wait r k).waits.length,
      (tenacityGo batch outcome wait r k).waits.getD i 0 = wait (k + i) := by
  induction r generalizing k with
  | zero =>
    intro i hi
    cases h : outcome k <;> simp [tenacityGo, h] at hi
  | succ r ih =>
    intro i hi
    cases h : outcome k with
    | ok a => simp [tenacityGo, h] at hi
    | error e =>
      by_cases he : e = .tooSlowError
      · simp only [tenacityGo, h, he, if_pos, List.length_cons] at hi ⊢
        cases i with
        | zero => simp
        | succ j =>
          have hj : j < (tenacityGo batch outcome wait r (k + 1)).waits.length :=
            Nat.lt_of_succ_lt_succ hi
          have := ih (k + 1) j hj
          have harith : k + 1 + j = k + (j + 1) := by omega
          rw [harith] at this
          simpa using this
      · simp [tenacityGo, h, he] at hi

/-! ### Claim theorems about the dispatcher -/

/-- C5: the dispatcher retries an attempt iff it failed with the timeout
fault class (the sink call exceeded the per-attempt deadline, default 15
when `api_timeout` is unset): every non-final attempt of a run failed with
`TooSlowError`; a run never stops early on a `TooSlowError`; at most 15
attempts are made; an attempt is classified as a timeout exactly when its
duration exceeds the deadline; the wait after attempt `i + 1` is the random
draw `u (i+1)` scaled by the exponential-curve cap `min (1 * 2 ^ (i+1)) 60`,
hence between 0 and 60; and the run's result is the final attempt's
outcome, so an exhausted run re-raises the final fault to its caller. -/
theorem dispatch_retry_policy (behavior : Nat → SinkCall) (u : Nat → ℚ)
    (batch : List Row) (api_timeout : Option ℚ)
    (hsink : ∀ k, (behavior k).result ≠ .error .tooSlowError)
    (hu : ∀ k, 0 ≤ u k ∧ u k ≤ 1) :
    (actually_send_batch behavior u batch api_timeout).attempts.length ≤ 15
    ∧ (∀ i, i + 1 < (actually_send_batch behavior u batch api_timeout).attempts.length →
        ((actually_send_batch behavior u batch api_timeout).attempts.getD i
            dummyAttempt).2 = .error .tooSlowError)
    ∧ ((actually_send_batch behavior u batch api_timeout).attempts.length < 15 →
        ((actually_send_batch behavior u batch api_timeout).attempts.getLastD
            dummyAttempt).2 ≠ .error .tooSlowError)
    ∧ (∀ i < (actually_send_batch behavior u batch api_timeout).attempts.length,
        (((actually_send_batch behavior u batch api_timeout).attempts.getD i
              dummyAttempt).2 = .error .tooSlowError
          ↔ api_timeout.getD 15 < (behavior (i + 1)).duration))
    ∧ (actually_send_batch behavior u batch api_timeout).waits.length + 1
        = (actually_send_batch behavior u batch api_timeout).attempts.length
    ∧ (∀ i < (actually_send_batch behavior u batch api_timeout).waits.length,
        (actually_send_batch behavior u batch api_timeout).waits.getD i 0
            = u (i + 1) * min ((2 : ℚ) ^ (i + 1)) 60
          ∧ 0 ≤ (actually_send_batch behavior u batch api_timeout).waits.getD i 0
          ∧ (actually_send_batch behavior u batch api_timeout).waits.getD i 0 ≤ 60)
    ∧ (actually_send_batch behavior u batch api_timeout).result
        = ((actually_send_batch behavior u batch api_timeout).attempts.getLastD
            dummyAttempt).2 := by
  simp only [actually_send_batch]
  refine ⟨tenacityGo_length_le _ _ _ 14 1, tenacityGo_nonfinal_tooSlow _ _ _ 14 1,
    fun h => tenacityGo_no_early_tooSlow _ _ _ 14 1 h, ?_,
    tenacityGo_waits_length _ _ _ 14 1, ?_, tenacityGo_result_getLast _ _ _ 14 1⟩
  · intro i hi
    rw [tenacityGo_outcome_getD _ _ _ 14 1 i hi]
    have harith : 1 + i = i + 1 := by omega
    rw [harith, attemptOutcome]
    by_cases hd : api_timeout.getD 15 < (behavior (i + 1)).duration
    · simp [hd]
    · simp [hd, hsink (i + 1)]
  · intro i hi
    rw [tenacityGo_waits_getD _ _ _ 14 1 i hi]
    have harith : 1 + i = i + 1 := by omega
    rw [harith, waitRandomExp]
    have hmin0 : (0 : ℚ) ≤ min ((2 : ℚ) ^ (i + 1)) 60 :=
      le_min (by positivity) (by norm_num)
    refine ⟨rfl, mul_nonneg (hu (i + 1)).1 hmin0, ?_⟩
    calc u (i + 1) * min ((2 : ℚ) ^ (i + 1)) 60
        ≤ min ((2 : ℚ) ^ (i + 1)) 60 :=
          mul_le_of_le_one_left hmin0 (hu (i + 1)).2
      _ ≤ 60 := min_le_right _ _

/-- A sink that always runs for 20 time units (exceeding the default
15-unit deadline) and would succeed if allowed to finish. -/
def behSlow : Nat → SinkCall := fun _ => ⟨20, .ok ()⟩

/-- A sink that immediately raises a non-timeout `Exception`. -/
def behErr : Nat → SinkCall := fun _ => ⟨1, .error (.exc "ServerError")⟩

/-- A sink whose first attempt runs for 20 time units (a timeout under the
default deadline) and whose later attempts succeed quickly. -/
def behOnce : Nat → SinkCall := fun k => if k = 1 then ⟨20, .ok ()⟩ else ⟨1, .ok ()⟩

/-- Degenerate random draws (uniform draw at the bottom of the range). -/
def uZero : Nat → ℚ := fun _ => 0

theorem dispatch_retry_policy_witness :
    (∀ k, (behSlow k).result ≠ .error .tooSlowError)
    ∧ (∀ k, 0 ≤ uZero k ∧ uZero k ≤ 1)
    ∧ ((actually_send_batch behSlow uZero [] none).attempts.length ≤ 15
      ∧ (∀ i, i + 1 < (actually_send_batch behSlow uZero [] none).attempts.length →
          ((actually_send_batch behSlow uZero [] none).attempts.getD i
              dummyAttempt).2 = .error .tooSlowError)
      ∧ ((actually_send_batch behSlow uZero [] none).attempts.length < 15 →
          ((actually_send_batch behSlow uZero [] none).attempts.getLastD
              dummyAttempt).2 ≠ .error .tooSlowError)
      ∧ (∀ i < (actually_send_batch behSlow uZero [] none).attempts.length,
          (((actually_send_batch behSlow uZero [] none).attempts.getD i
                dummyAttempt).2 = .error .tooSlowError
            ↔ (none : Option ℚ).getD 15 < (behSlow (i + 1)).duration))
      ∧ (actually_send_batch behSlow uZero [] none).waits.length + 1
          = (actually_send_batch behSlow uZero [] none).attempts.length
      ∧ (∀ i < (actually_send_batch behSlow uZero [] none).waits.length,
          (actually_send_batch behSlow uZero [] none).waits.getD i 0
              = uZero (i + 1) * min ((2 : ℚ) ^ (i + 1)) 60
            ∧ 0 ≤ (actually_send_batch behSlow uZero [] none).waits.getD i 0
            ∧ (actually_send_batch behSlow uZero [] none).waits.getD i 0 ≤ 60)
      ∧ (actually_send_batch behSlow uZero [] none).result
          = ((actually_send_batch behSlow uZero [] none).attempts.getLastD
              dummyAttempt).2) :=
  ⟨fun _ => by simp [behSlow], fun _ => by norm_num [uZero],
    dispatch_retry_policy behSlow uZero [] none (fun _ => by simp [behSlow])
      (fun _ => by norm_num [uZero])⟩

/-- C4: any fault raised out of the decorated `actually_send_batch` — the
timeout fault after retry exhaustion, or any (`Exception`-class) fault the
sink raises — is caught by `send_batch`'s `except Exception`, which returns
normally and drops the sub-batch; no such fault escapes to its caller. -/
theorem send_batch_no_escape (behavior : Nat → SinkCall) (u : Nat → ℚ)
    (batch : List Row) (api_timeout : Option ℚ)
    (hexc : ∀ k e, (behavior k).result = .error e → e.isException = true) :
    send_batch behavior u batch api_timeout = .ok () := by
  simp only [send_batch, actually_send_batch]
  cases hres : (tenacityGo batch (attemptOutcome behavior (api_timeout.getD 15))
      (waitRandomExp u) 14 1).result with
  | ok a => rfl
  | error e =>
    rcases tenacityGo_error_from_outcome batch _ (waitRandomExp u) 14 1 e hres
      with ⟨j, hj⟩
    have hisexc : e.isException = true := by
      rw [attemptOutcome] at hj
      by_cases hd : api_timeout.getD 15 < (behavior j).duration
      · rw [if_pos hd] at hj
        cases hj
        rfl
      · rw [if_neg hd] at hj
        exact hexc j e hj
    simp [hisexc]

theorem send_batch_no_escape_witness :
    (∀ k e, (behErr k).result = .error e → e.isException = true)
    ∧ send_batch behErr uZero [] none = .ok ()
    ∧ (∀ k e, (behSlow k).result = .error e → e.isException = true)
    ∧ send_batch behSlow uZero [] none = .ok () := by
  have h1 : ∀ k e, (behErr k).result = .error e → e.isException = true := by
    intro k e h
    simp only [behErr] at h
    injection h with h
    rw [← h]
    rfl
  have h2 : ∀ k e, (behSlow k).result = .error e → e.isException = true := by
    intro k e h
    simp [behSlow] at h
  exact ⟨h1, send_batch_no_escape behErr uZero [] none h1, h2,
    send_batch_no_escape behSlow uZero [] none h2⟩

/-- C3 counterexample: a dispatch of the sub-batch whose rows carry the
tokens `[0, 1]`, against a sink whose first attempt times out and whose
second succeeds.  The run makes exactly two attempts — a failure and its
retry — and the retry resends exactly the same idempotency token values as
the first attempt: the tokens are NOT freshly derived at the retry,
contrary to the claim. -/
theorem retry_resends_same_tokens :
    (actually_send_batch behOnce uZero (attachIds 0 [exD1, exD2]) none).attempts.length
        = 2
    ∧ ((actually_send_batch behOnce uZero (attachIds 0 [exD1, exD2]) none).attempts.getD
          0 dummyAttempt).2 = .error .tooSlowError
    ∧ ((actually_send_batch behOnce uZero (attachIds 0 [exD1, exD2]) none).attempts.map
          (fun a => a.1.map Row.insertId)) = [[0, 1], [0, 1]] := by
  refine ⟨by decide, by decide, by decide⟩

/-- C3 amended: the idempotency tokens of a sub-batch are attached once, in
`compute_batches`, before the first dispatch attempt; every attempt of the
decorated `actually_send_batch` — the first try and every retry — sends the
sub-batch rows unchanged, so a retried attempt resends exactly the token
values of the previous attempt. -/
theorem dispatch_payload_constant (behavior : Nat → SinkCall) (u : Nat → ℚ)
    (batch : List Row) (api_timeout : Option ℚ) :
    (actually_send_batch behavior u batch api_timeout).attempts.map Prod.fst
      = List.replicate
          (actually_send_batch behavior u batch api_timeout).attempts.length batch := by
  simp only [actually_send_batch]
  exact tenacityGo_payloads _ _ _ 14 1

/-! ### Claim theorems about the Batcher cycle -/

theorem batchCycle_eq_takeWhile_take (bt : ℚ) :
    ∀ (n : Nat) (arr : List (ℚ × Download)),
      batchCycle bt n arr
        = ((arr.takeWhile (fun a => decide (a.1 < bt))).take n).map Prod.snd := by
  intro n
  induction n with
  | zero => intro arr; simp [batchCycle]
  | succ n ih =>
    intro arr
    cases arr with
    | nil => simp [batchCycle]
    | cons a rest =>
      obtain ⟨t, x⟩ := a
      by_cases h : t < bt
      · have htw : List.takeWhile (fun (a : ℚ × Download) => decide (a.1 < bt))
            ((t, x) :: rest)
            = (t, x) :: List.takeWhile (fun (a : ℚ × Download) => decide (a.1 < bt))
                rest := by
          simp [List.takeWhile_cons, h]
        rw [htw]
        simp [batchCycle, h, ih rest]
      · have htw : List.takeWhile (fun (a : ℚ × Download) => decide (a.1 < bt))
            ((t, x) :: rest) = [] := by
          simp [List.takeWhile_cons, h]
        rw [htw]
        simp [batchCycle, h]

theorem cycleEndAux_spec (bt : ℚ) :
    ∀ (n : Nat) (now : ℚ) (arr : List (ℚ × Download)),
      cycleEndAux bt now n arr
        = if n ≤ (arr.takeWhile (fun a => decide (a.1 < bt))).length ∧ n ≠ 0
          then (((arr.takeWhile (fun a => decide (a.1 < bt))).take n).map
                  Prod.fst).getLastD now
          else if n = 0 then now else bt := by
  intro n
  induction n with
  | zero => intro now arr; simp [cycleEndAux]
  | succ n ih =>
    intro now arr
    cases arr with
    | nil => simp [cycleEndAux]
    | cons a rest =>
      obtain ⟨t, x⟩ := a
      by_cases h : t < bt
      · have htw : List.takeWhile (fun (a : ℚ × Download) => decide (a.1 < bt))
            ((t, x) :: rest)
            = (t, x) :: List.takeWhile (fun (a : ℚ × Download) => decide (a.1 < bt))
                rest := by
          simp [List.takeWhile_cons, h]
        have lhs : cycleEndAux bt now (n + 1) ((t, x) :: rest) = cycleEndAux bt t n rest := by
          simp [cycleEndAux, h]
        rw [lhs, ih t rest, htw]
        simp only [List.length_cons, List.take_succ_cons, List.map_cons,
          List.getLastD_cons]
        by_cases h0 : n = 0
        · subst h0
          simp
        · by_cases hn : n ≤ (rest.takeWhile (fun a => decide (a.1 < bt))).length
          · rw [if_pos ⟨hn, h0⟩, if_pos ⟨by omega, by omega⟩]
          · rw [if_neg (fun hc => hn hc.1), if_neg h0, if_neg (by omega),
              if_neg (by omega)]
      · have htw : List.takeWhile (fun (a : ℚ × Download) => decide (a.1 < bt))
            ((t, x) :: rest) = [] := by
          simp [List.takeWhile_cons, h]
        have lhs : cycleEndAux bt now (n + 1) ((t, x) :: rest) = bt := by
          simp [cycleEndAux, h]
        rw [lhs, htw]
        simp

/-- C7: with `batch_size`/`batch_timeout` unset, `sender` resolves them to 3
and 30; a cycle collects, in order, the queue arrivals that complete
strictly before the 30-unit deadline, capped at 3 — whichever bound is hit
first ends the collection; when 3 arrivals complete early the collection
block exits at the third arrival's completion time, strictly before the
timeout, and otherwise it exits exactly at the deadline; and a cycle that
collected nothing yields no sub-batch at all (`compute_batches` of an empty
batch is empty), so no dispatch task is launched and the next cycle starts
at once. -/
theorem sender_cycle_policy (arrivals : List (ℚ × Download)) (c : Nat) :
    senderResolve none none = (3, 30)
    ∧ senderCycle arrivals none none
        = ((arrivals.takeWhile (fun a => decide (a.1 < 30))).take 3).map Prod.snd
    ∧ senderCycleEnd arrivals none none
        = (if 3 ≤ (arrivals.takeWhile (fun a => decide (a.1 < 30))).length ∧ (3:Nat) ≠ 0
           then (((arrivals.takeWhile (fun a => decide (a.1 < 30))).take 3).map
                   Prod.fst).getLastD 0
           else if (3:Nat) = 0 then 0 else 30)
    ∧ (3 ≤ (arrivals.takeWhile (fun a => decide (a.1 < 30))).length →
        senderCycleEnd arrivals none none < 30)
    ∧ compute_batches ([] : List Download) c = [] := by
  refine ⟨rfl, batchCycle_eq_takeWhile_take 30 3 arrivals,
    cycleEndAux_spec 30 3 0 arrivals, ?_, rfl⟩
  intro hlen
  rw [show senderCycleEnd arrivals none none = cycleEndAux 30 0 3 arrivals from rfl,
    cycleEndAux_spec 30 3 0 arrivals, if_pos ⟨hlen, by omega⟩]
  have hne : ((arrivals.takeWhile (fun a => decide (a.1 < 30))).take 3).map Prod.fst
      ≠ [] := by
    intro hnil
    have hl := congrArg List.length hnil
    rw [List.length_map, List.length_take] at hl
    simp only [List.length_nil] at hl
    omega
  have hmem := getLastD_mem hne (0 : ℚ)
  rcases List.mem_map.mp hmem with ⟨a, ha, hfst⟩
  have ha2 : a ∈ arrivals.takeWhile (fun b => decide (b.1 < 30)) :=
    List.take_subset _ _ ha
  have hpa := List.mem_takeWhile_imp ha2
  rw [← hfst]
  simpa using hpa

/-- Concrete arrivals for the C7 witness: three early gets and one past the
deadline. -/
def exArrivals : List (ℚ × Download) := [(1, exD1), (2, exD2), (3, exD1), (40, exD2)]

theorem sender_cycle_policy_witness :
    senderResolve none none = (3, 30)
    ∧ senderCycle exArrivals none none
        = ((exArrivals.takeWhile (fun a => decide (a.1 < 30))).take 3).map Prod.snd
    ∧ senderCycleEnd exArrivals none none
        = (if 3 ≤ (exArrivals.takeWhile (fun a => decide (a.1 < 30))).length ∧ (3:Nat) ≠ 0
           then (((exArrivals.takeWhile (fun a => decide (a.1 < 30))).take 3).map
                   Prod.fst).getLastD 0
           else if (3:Nat) = 0 then 0 else 30)
    ∧ (3 ≤ (exArrivals.takeWhile (fun a => decide (a.1 < 30))).length →
        senderCycleEnd exArrivals none none < 30)
    ∧ compute_batches ([] : List Download) 0 = [] :=
  sender_cycle_policy exArrivals 0

/-! ### Claim theorems about the decode boundary -/

/-- A syslog-stage parser that rejects every line (raises `ValueError`). -/
def spFail : List Nat → Except Unit SyslogMessage := fun _ => .error ()

/-- An event-stage parser that rejects every payload (raises `ValueError`). -/
def epFail : List Nat → Except Unit Download := fun _ => .error ()

/-- C1: evaluation at the failing input.  For EVERY parser pair and token
configuration, `parse_line` on the single byte `0xFF` (not valid UTF-8)
raises `UnicodeDecodeError` out of the decode boundary instead of returning
no record — `line.decode("utf8")` runs before the `try/except ValueError`
block, so the claim "never raises, including for input bytes that are not
valid UTF-8" is false on the code.  (For comparison, the conjunct on the
valid-UTF-8 line `b"hi"` shows a parse-stage failure IS caught and reported
as no record.) -/
theorem parse_line_raises_on_invalid_utf8 :
    (∀ (sp : List Nat → Except Unit SyslogMessage)
       (ep : List Nat → Except Unit Download) (tok : Option (List Nat)),
        parse_line sp ep [0xFF] tok = .error .unicodeDecodeError)
    ∧ (∀ ep : List Nat → Except Unit Download,
        parse_line spFail ep [104, 105] none = .ok none) :=
  ⟨fun _ _ _ => rfl, fun _ => rfl⟩

/-- C6 counterexample: with the token `"t"` configured, the line consisting
of the single byte `0x80` does not start with the token, yet `parse_line`
does not return nothing — it raises `UnicodeDecodeError`, because the UTF-8
decode precedes the token check and the byte is not valid UTF-8. -/
theorem token_reject_raises :
    parse_line spFail epFail [0x80] (some [116]) = .error .unicodeDecodeError
    ∧ parse_line spFail epFail [0x80] (some [116]) ≠ .ok none := by
  refine ⟨rfl, ?_⟩
  intro hc
  exact absurd (rfl.symm.trans hc) (by decide)

/-- C6 amended: restricted to input lines that decode as UTF-8 (an invalid
line raises `UnicodeDecodeError` instead, see `token_reject_raises`): when a
token is configured, a line that does not start with it makes `parse_line`
return nothing without attempting either parse stage (the result is `.ok
none` for EVERY parser pair); a line that does start with it is parsed with
the token prefix stripped; and with no token configured the decoded line is
parsed as-is. -/
theorem token_gate (line s t : List Nat)
    (sp : List Nat → Except Unit SyslogMessage)
    (ep : List Nat → Except Unit Download)
    (h : utf8Decode line = some s) :
    (t.isPrefixOf s = false → parse_line sp ep line (some t) = .ok none)
    ∧ (t.isPrefixOf s = true →
        parse_line sp ep line (some t) = parseStages sp ep (s.drop t.length))
    ∧ parse_line sp ep line none = parseStages sp ep s := by
  refine ⟨?_, ?_, ?_⟩
  · intro hp
    simp [parse_line, h, hp]
  · intro hp
    simp [parse_line, h, hp]
  · simp [parse_line, h]

theorem token_gate_witness :
    utf8Decode [120] = some [120]
    ∧ (List.isPrefixOf [116] [120] = false →
        parse_line spFail epFail [120] (some [116]) = .ok none)
    ∧ (List.isPrefixOf [116] [120] = true →
        parse_line spFail epFail [120] (some [116])
          = parseStages spFail epFail ([120].drop ([116] : List Nat).length))
    ∧ parse_line spFail epFail [120] none = parseStages spFail epFail [120] :=
  ⟨by decide, token_gate [120] [120] [116] spFail epFail (by decide)⟩

/-! ### Claim theorem about the grouping key -/

/-- C2: evaluation at the failing input.  The records dated 2023-01-05 and
2023-11-05 get the grouping keys `"202315"` (6 characters) and
`"202311309"` (9 characters): the `"YYYYMDDD"` format concatenates an
unpadded month and an unpadded day-of-year, so the keys are NOT all of the
same width, contrary to the claim (and to the spec's fixed-width calendar
date key, computed by `specFixedWidthKey`, which gives the 8-character keys
`"20230105"` / `"20231105"` on the same inputs). -/
theorem grouping_key_not_fixed_width :
    extract_item_date ⟨⟨2023, 1, 5⟩, []⟩ = "202315"
    ∧ extract_item_date ⟨⟨2023, 11, 5⟩, []⟩ = "202311309"
    ∧ (extract_item_date ⟨⟨2023, 1, 5⟩, []⟩).length = 6
    ∧ (extract_item_date ⟨⟨2023, 11, 5⟩, []⟩).length = 9
    ∧ specFixedWidthKey ⟨2023, 1, 5⟩ = "20230105"
    ∧ specFixedWidthKey ⟨2023, 11, 5⟩ = "20231105"
    ∧ (specFixedWidthKey ⟨2023, 1, 5⟩).length
        = (specFixedWidthKey ⟨2023, 11, 5⟩).length := by
  refine ⟨by decide, by decide, by decide, by decide, by decide, by decide, by decide⟩

end Linehaul
